import Mathlib

set_option autoImplicit false

/-!
# Verification of the 5uaParser news-extraction pipeline

A shallow embedding of `src/5ua-parser.js` (a Meduza.io parser and an RBC
parser sharing one repository).  JavaScript strings are modelled as `List Char`;
JavaScript objects whose key sets vary are modelled as association lists;
the headless-browser boundary is modelled by passing the per-selector query
results (respectively per-article fetch outcomes) as explicit parameters.
-/

namespace FiveUA

/-! ## JavaScript string primitives -/

/-- JavaScript strings, modelled as lists of characters. -/
abbrev JStr := List Char

/-- Embed a Lean string literal as a `JStr`. -/
def toCL (s : String) : JStr := s.data

/-- `String.prototype.toLowerCase`, restricted to the alphabets the program
uses: ASCII `A`–`Z` and Cyrillic `А`–`Я` (U+0410–U+042F) map down by 0x20,
`Ё` (U+0401) maps to `ё` (U+0451); every other character is unchanged. -/
def toLowerJs (c : Char) : Char :=
  if 0x41 ≤ c.toNat ∧ c.toNat ≤ 0x5A then Char.ofNat (c.toNat + 0x20)
  else if 0x410 ≤ c.toNat ∧ c.toNat ≤ 0x42F then Char.ofNat (c.toNat + 0x20)
  else if c.toNat = 0x401 then Char.ofNat 0x451
  else c

/-- Lowercase a whole string. -/
def lowerCL (s : JStr) : JStr := s.map toLowerJs

/-- `needle` occurs at the very start of `hay`. -/
def isPrefixCL : JStr → JStr → Bool
  | [], _ => true
  | _ :: _, [] => false
  | c :: cs, d :: ds => c == d && isPrefixCL cs ds

/-- `String.prototype.includes`: `hay.includes(needle)`. -/
def strIncludes : JStr → JStr → Bool
  | [], needle => isPrefixCL needle []
  | hay@(_ :: t), needle => isPrefixCL needle hay || strIncludes t needle

/-- The whitespace class of the JavaScript regular expression `\s`
(the characters relevant to this program). -/
def isWsJs (c : Char) : Bool :=
  c == ' ' || c == '\t' || c == '\n' || c == '\r' ||
  c.toNat == 0x0B || c.toNat == 0x0C || c.toNat == 0xA0 ||
  c.toNat == 0x1680 || c.toNat == 0x2028 || c.toNat == 0x2029 ||
  c.toNat == 0x202F || c.toNat == 0x205F || c.toNat == 0x3000 ||
  c.toNat == 0xFEFF

/-- One step of `splitWs`, consuming a character from the right.  The state
is the pieces built so far plus a flag recording whether the character just
to the right was whitespace (so that a maximal whitespace run yields a
single boundary). -/
def splitWsStep (c : Char) : List (List Char) × Bool → List (List Char) × Bool
  | (pieces, lastWs) =>
    if isWsJs c then
      if lastWs then (pieces, true)
      else ([] :: pieces, true)
    else
      match pieces with
      | [] => ([[c]], false)
      | p :: ps => ((c :: p) :: ps, false)

/-- `str.split(/\s+/)`: split on maximal whitespace runs; a leading
(trailing) run produces an empty first (last) piece, and the empty string
splits to `[""]`, exactly as in JavaScript. -/
def splitWs (s : JStr) : List JStr := (s.foldr splitWsStep ([[]], false)).1

/-! ## Sentiment analysis (`getTextSentiment`, RBC file) -/

/-- The three sentiment labels. -/
inductive SLabel where
  | positive
  | negative
  | neutral
deriving DecidableEq, Repr

/-- The object returned by `getTextSentiment`.  `neutral` is an integer
because `words.length - positiveScore - negativeScore` can go negative in
JavaScript when a token matches both lexicons. -/
structure SentimentScore where
  positive : Nat
  negative : Nat
  neutral : Int
  sentiment : SLabel
deriving DecidableEq, Repr

/-- The positive lexicon (`positiveWords` in the source). -/
def positiveWords : List JStr :=
  [toCL "рост", toCL "успех", toCL "подъем", toCL "положительный",
   toCL "хороший", toCL "выгод", toCL "развити"]

/-- The negative lexicon (`negativeWords` in the source). -/
def negativeWords : List JStr :=
  [toCL "падение", toCL "снижение", toCL "кризис", toCL "проблема",
   toCL "конфликт", toCL "спад", toCL "риск"]

/-- A token counts toward a lexicon when it contains some lexicon word as a
substring (`word.includes(w)` in the source). -/
def tokenMatches (lexicon : List JStr) (w : JStr) : Bool :=
  lexicon.any (fun p => strIncludes w p)

/-- `getTextSentiment(text)`: lowercase, split on `/\s+/`, count tokens
containing a positive (resp. negative) lexicon substring, and label. -/
def getTextSentiment (text : JStr) : SentimentScore :=
  let words := splitWs (lowerCL text)
  let positiveScore := words.countP (tokenMatches positiveWords)
  let negativeScore := words.countP (tokenMatches negativeWords)
  { positive := positiveScore
    negative := negativeScore
    neutral := (words.length : Int) - positiveScore - negativeScore
    sentiment :=
      if negativeScore < positiveScore then .positive
      else if positiveScore < negativeScore then .negative
      else .neutral }

/-! ## Retry wrapper (`tryWithRetry`, RBC file) -/

/-- Outcome of a `tryWithRetry` run: the value returned or the error finally
thrown, how many times `fn` was invoked, and the total milliseconds spent in
`delay` calls.  The thrown error is an `Option` because with
`maxRetries = 0` the source throws the still-undefined `lastError`. -/
structure RetryTrace (ε α : Type) where
  result : Except (Option ε) α
  attemptsMade : Nat
  delayedMs : Nat

/-- Loop body of `tryWithRetry`: `remaining` attempts left, `attempt` is the
1-based number of the next attempt, `fn` is modelled by the map `outcomes`
from attempt number to what `fn()` does on that invocation. -/
def tryWithRetryGo {ε α : Type} (outcomes : Nat → Except ε α) (retryDelay : Nat) :
    Nat → Nat → Option ε → Nat → Nat → RetryTrace ε α
  | 0, _attempt, lastErr, made, delayed => ⟨.error lastErr, made, delayed⟩
  | remaining + 1, attempt, _lastErr, made, delayed =>
    match outcomes attempt with
    | .ok a => ⟨.ok a, made + 1, delayed⟩
    | .error e =>
      tryWithRetryGo outcomes retryDelay remaining (attempt + 1) (some e)
        (made + 1) (delayed + retryDelay)

/-- `tryWithRetry(fn, maxRetries, retryDelay)`: attempts 1..maxRetries, on
each failure records the error, waits `retryDelay`, and retries; after the
loop the last error is thrown. -/
def tryWithRetry {ε α : Type} (outcomes : Nat → Except ε α)
    (maxRetries retryDelay : Nat) : RetryTrace ε α :=
  tryWithRetryGo outcomes retryDelay maxRetries 1 none 0 0

/-! ## RBC records and the concurrent detail-fetch stage -/

/-- An article stub discovered on the listing page (`{title, url}`). -/
structure Stub where
  title : JStr
  url : JStr
deriving DecidableEq, Repr

/-- `getCategory(url)`: first matching path substring wins. -/
def getCategory (url : JStr) : JStr :=
  if strIncludes url (toCL "/politics/") then toCL "Политика"
  else if strIncludes url (toCL "/economics/") then toCL "Экономика"
  else if strIncludes url (toCL "/society/") then toCL "Общество"
  else if strIncludes url (toCL "/rbcfreenews/") then toCL "Срочные новости"
  else toCL "Новости"

/-- The object returned by the in-page evaluation on an article page. -/
structure Details where
  content : JStr
  author : JStr
  tags : List JStr
  publishedAt : JStr
  imageUrl : JStr
  hasVideo : Bool
deriving DecidableEq, Repr

/-- A full article record.  Fields that only one of the two branches of
`parseRBCWebsite`'s per-article task sets are `Option`s: the catch branch
sets no `publishedAt`, `imageUrl` or `sentiment`, the success branch sets no
`error`. -/
structure Record where
  title : JStr
  url : JStr
  category : JStr
  content : JStr
  author : JStr
  tags : List JStr
  publishedAt : Option JStr
  imageUrl : Option JStr
  hasVideo : Bool
  sentiment : Option SentimentScore
  parsedAt : JStr
  error : Option JStr
deriving DecidableEq, Repr

/-- The per-article task of `parseRBCWebsite`.  The whole
navigate-with-retry / wait / evaluate sequence is modelled by `fetch`, which
returns either the evaluated `Details` or the error message finally thrown;
the task converts a failure into a degraded record instead of re-raising. -/
def processStub (fetch : Stub → Except JStr Details) (parsedAt : JStr)
    (article : Stub) : Record :=
  match fetch article with
  | .ok d =>
    { title := article.title
      url := article.url
      category := getCategory article.url
      content := d.content
      author := d.author
      tags := d.tags
      publishedAt := some d.publishedAt
      imageUrl := some d.imageUrl
      hasVideo := d.hasVideo
      sentiment := some (getTextSentiment d.content)
      parsedAt := parsedAt
      error := none }
  | .error e =>
    { title := article.title
      url := article.url
      category := getCategory article.url
      content := []
      author := toCL "РБК"
      tags := []
      publishedAt := none
      imageUrl := none
      hasVideo := false
      sentiment := none
      parsedAt := parsedAt
      error := some e }

/-- The detail-fetch stage: one task per stub, joined by `Promise.all`,
which associates the result of task `i` with position `i`. -/
def rbcDetailStage (fetch : Stub → Except JStr Details) (parsedAt : JStr)
    (stubs : List Stub) : List Record :=
  stubs.map (processStub fetch parsedAt)

/-- A `fetch` built from `tryWithRetry` around a navigation function whose
behaviour on its k-th invocation for stub `s` is `nav s k`. -/
def rbcFetchWithRetry (nav : Stub → Nat → Except JStr Details)
    (maxRetries retryDelay : Nat) (s : Stub) : Except JStr Details :=
  match (tryWithRetry (nav s) maxRetries retryDelay).result with
  | .ok d => .ok d
  | .error (some e) => .error e
  | .error none => .error (toCL "undefined")

/-- The `sentimentStats` counters of `runParser`: articles whose
`sentiment.sentiment` is `positive` / `negative` / `neutral`
(an absent `sentiment` falls into no bucket). -/
def sentimentStats (articles : List Record) : Nat × Nat × Nat :=
  (articles.countP (fun a =>
      match a.sentiment with
      | some s => s.sentiment = SLabel.positive
      | none => false),
   articles.countP (fun a =>
      match a.sentiment with
      | some s => s.sentiment = SLabel.negative
      | none => false),
   articles.countP (fun a =>
      match a.sentiment with
      | some s => s.sentiment = SLabel.neutral
      | none => false))

/-! ## Listing deduplication (`new Map(articles.map(item => [item.url, item]))`) -/

/-- One `Map.prototype.set` step on an insertion-ordered association list:
an existing key keeps its position but its value is overwritten; a new key
is appended at the end.  These are exactly the JavaScript `Map` semantics. -/
def mapInsert (m : List (JStr × Stub)) (k : JStr) (v : Stub) : List (JStr × Stub) :=
  if m.any (fun p => decide (p.1 = k)) then
    m.map (fun p => if p.1 = k then (k, v) else p)
  else m ++ [(k, v)]

/-- `new Map(articles.map(item => [item.url, item]))`. -/
def buildUrlMap (articles : List Stub) : List (JStr × Stub) :=
  articles.foldl (fun m a => mapInsert m a.url a) []

/-- `[...map.values()]`: the deduplicated stub list of `parseRBCWebsite`. -/
def uniqueArticles (articles : List Stub) : List Stub :=
  (buildUrlMap articles).map Prod.snd

/-- The listing pipeline around the deduplication: discovered anchors are
kept only when both title and url are non-empty, deduplicated, and truncated
to `maxArticles`. -/
def rbcListing (raw : List Stub) (maxArticles : Nat) : List Stub :=
  (uniqueArticles (raw.filter (fun a => !a.title.isEmpty && !a.url.isEmpty))).take maxArticles

/-- Specification device: deduplicate a url list keeping the first
occurrence of each url, skipping urls already in `seen`. -/
def fsDedup (seen : List JStr) : List JStr → List JStr
  | [] => []
  | u :: rest => if u ∈ seen then fsDedup seen rest else u :: fsDedup (u :: seen) rest

/-- The urls of a stub list in first-seen order, each once. -/
def firstSeenUrls (articles : List Stub) : List JStr :=
  fsDedup [] (articles.map (fun a => a.url))

/-- Specification device: the last stub in `l` whose url is `u`. -/
def lastWithUrl : List Stub → JStr → Option Stub
  | [], _ => none
  | s :: rest, u =>
    match lastWithUrl rest u with
    | some v => some v
    | none => if s.url = u then some s else none

/-! ## Serializers -/

/-- A JavaScript value sitting in a record field, as the serializers see it:
a string, an array of strings, a boolean, or a plain (non-array) object
represented by its `JSON.stringify` text. -/
inductive JsVal where
  | str (s : JStr)
  | arr (xs : List JStr)
  | bool (b : Bool)
  | objText (json : JStr)
deriving DecidableEq, Repr

instance : Inhabited JsVal := ⟨JsVal.str []⟩

/-- A JavaScript object as a serializer input: keys in insertion order. -/
abbrev CsvRecord := List (JStr × JsVal)

/-- `Set.prototype.add`: append the key unless already present. -/
def addKey (acc : List JStr) (k : JStr) : List JStr :=
  if k ∈ acc then acc else acc ++ [k]

/-- RBC `saveToCsv` header computation: every key of every record, in
first-seen order (`allKeys` `Set` in the source). -/
def allKeysUnion (data : List CsvRecord) : List JStr :=
  data.foldl (fun acc item => item.foldl (fun acc2 kv => addKey acc2 kv.1) acc) []

/-- Double every `"` (`.replace(/"/g, '""')`). -/
def escapeQ : JStr → JStr
  | [] => []
  | c :: rest => if c = '"' then '"' :: '"' :: escapeQ rest else c :: escapeQ rest

/-- `Array.prototype.join` with separator `sep`. -/
def joinSep (sep : JStr) : List JStr → JStr
  | [] => []
  | [x] => x
  | x :: rest => x ++ sep ++ joinSep sep rest

/-- `item[header]` on a modelled object: first entry with that key. -/
def lookupKey (item : CsvRecord) (k : JStr) : Option JsVal :=
  (item.find? (fun kv => decide (kv.1 = k))).map Prod.snd

/-- The RBC cell renderer: `undefined`/`null` → `""`, non-array object →
its JSON text, array → `"; "` join, otherwise `String(value)` — every
case double-quoted with inner quotes doubled. -/
def renderCellRBC : Option JsVal → JStr
  | none => toCL "\"\""
  | some (.objText j) => '"' :: escapeQ j ++ ['"']
  | some (.arr xs) => '"' :: escapeQ (joinSep (toCL "; ") xs) ++ ['"']
  | some (.str s) => '"' :: escapeQ s ++ ['"']
  | some (.bool b) => '"' :: escapeQ (toCL (if b then "true" else "false")) ++ ['"']

/-- One RBC CSV data row: the record's cells in header order. -/
def rbcCsvRow (headers : List JStr) (item : CsvRecord) : JStr :=
  joinSep (toCL ",") (headers.map (fun h => renderCellRBC (lookupKey item h)))

/-- RBC `saveToCsv`: with no records, report and write nothing; otherwise
emit a BOM, the header line, and one row per record. -/
def rbcSaveToCsv (data : List CsvRecord) : Except JStr JStr :=
  if data.isEmpty then .error (toCL "Нет данных для сохранения в CSV")
  else
    let headers := allKeysUnion data
    .ok (Char.ofNat 0xFEFF :: joinSep (toCL "\n")
      (joinSep (toCL ",") headers :: data.map (rbcCsvRow headers)))

/-- Escape `"` and `\` for JSON text (the cases this program can produce). -/
def jsonEscape : JStr → JStr
  | [] => []
  | c :: r =>
    if c = '"' then '\\' :: '"' :: jsonEscape r
    else if c = '\\' then '\\' :: '\\' :: jsonEscape r
    else c :: jsonEscape r

/-- `JSON.stringify` of one field value. -/
def jsonOfVal : JsVal → JStr
  | .str s => '"' :: jsonEscape s ++ ['"']
  | .bool b => toCL (if b then "true" else "false")
  | .arr xs => '[' :: joinSep (toCL ",") (xs.map (fun x => '"' :: jsonEscape x ++ ['"'])) ++ [']']
  | .objText j => j

/-- `JSON.stringify(data)` over modelled records (the 2-space pretty-printing
whitespace of `JSON.stringify(data, null, 2)` is elided; an empty array
stringifies to `[]` exactly as in JavaScript). -/
def jsonStringify (data : List CsvRecord) : JStr :=
  match data with
  | [] => toCL "[]"
  | _ =>
    '[' :: joinSep (toCL ",")
      (data.map (fun item =>
        '\x7b' :: joinSep (toCL ",")
          (item.map (fun kv => '"' :: jsonEscape kv.1 ++ '"' :: ':' :: jsonOfVal kv.2))
          ++ ['\x7d'])) ++ [']']

/-- RBC `saveToJson`: guarded against an empty record list. -/
def rbcSaveToJson (data : List CsvRecord) : Except JStr JStr :=
  if data.isEmpty then .error (toCL "Нет данных для сохранения в JSON")
  else .ok (jsonStringify data)

/-- Meduza `saveToJson`: no emptiness guard — it always writes. -/
def meduzaSaveToJson (data : List CsvRecord) : Except JStr JStr :=
  .ok (jsonStringify data)

/-- The Meduza CSV header keys: only the first record's keys
(`Object.keys(data[0])`). -/
def meduzaCsvHeaderKeys (data : List CsvRecord) : List JStr :=
  (data.headD []).map Prod.fst

/-- The Meduza cell renderer: arrays join on `"; "`, otherwise
`(value || '').toString()` — so `false` and `null`-like values render
empty, and a plain object renders as `[object Object]`. -/
def renderCellMeduza : JsVal → JStr
  | .arr xs => '"' :: escapeQ (joinSep (toCL "; ") xs) ++ ['"']
  | .str s => '"' :: escapeQ s ++ ['"']
  | .bool b => '"' :: escapeQ (toCL (if b then "true" else "")) ++ ['"']
  | .objText _ => '"' :: escapeQ (toCL "[object Object]") ++ ['"']

/-- Meduza `saveToCsv`: header from the first record only; each row renders
`Object.values(item)` in the record's own key order. -/
def meduzaSaveToCsv (data : List CsvRecord) : Except JStr JStr :=
  if data.isEmpty then .error (toCL "Нет данных для сохранения в CSV")
  else
    .ok (joinSep (toCL "\n")
      (joinSep (toCL ",") (meduzaCsvHeaderKeys data)
        :: data.map (fun item =>
             joinSep (toCL ",") (item.map (fun kv => renderCellMeduza kv.2)))))

/-- Lexicographic order on strings by code point (specification device for
"sorted", as JavaScript's default string comparison would give). -/
def lexLeCL : JStr → JStr → Bool
  | [], _ => true
  | _ :: _, [] => false
  | c :: cs, d :: ds =>
    if c.toNat < d.toNat then true
    else if d.toNat < c.toNat then false
    else lexLeCL cs ds

/-- Adjacent-pair sortedness of a string list under `lexLeCL`. -/
def sortedByLex : List JStr → Bool
  | [] => true
  | [_] => true
  | x :: y :: rest => lexLeCL x y && sortedByLex (y :: rest)

/-! ## Selector cascade resolver -/

/-- The first strategy result with at least one match. -/
def firstNonEmpty {E : Type} : List (List E) → Option (List E)
  | [] => none
  | s :: rest => if s.isEmpty then firstNonEmpty rest else some s

/-- The cascade resolver: try the declared strategies in order, stop at the
first that matches, and fall back to the generic anchor heuristic (whose
matches are `fallback`) only when every declared strategy found nothing.
An overall empty result is a value, not an error. -/
def resolveCascade {E : Type} (strategies : List (List E)) (fallback : List E) : List E :=
  match firstNonEmpty strategies with
  | some ms => ms
  | none => fallback

/-! ## Meduza category filter -/

/-- A Meduza listing stub (fallback path: `{title, url, category, imageUrl}`). -/
structure MStub where
  title : JStr
  url : JStr
  category : JStr
  imageUrl : JStr
deriving DecidableEq, Repr

/-- `categoryMatches`: an empty filter accepts everything, otherwise some
selected category must occur, case-insensitively, inside the stub's
category label. -/
def categoryMatches (selectedCategories : List JStr) (category : JStr) : Bool :=
  selectedCategories.isEmpty ||
  selectedCategories.any (fun sc => strIncludes (lowerCL category) (lowerCL sc))

/-- The category filter over discovered stubs (the push-guard of the
fallback listing path). -/
def meduzaFilterStubs (selectedCategories : List JStr) (stubs : List MStub) : List MStub :=
  stubs.filter (fun a => categoryMatches selectedCategories a.category)

/-- The object returned by the in-page evaluation on a Meduza article page
(`{content, author, tags, hasVideo}`). -/
structure MDetails where
  content : JStr
  author : JStr
  tags : List JStr
  hasVideo : Bool
deriving DecidableEq, Repr

/-- A record pushed by the Meduza detail loop.  The detail fields are
`Option`s because the loop's skip path (`!article.url`) and its catch path
push the bare listing stub, which carries none of them; no branch of the
Meduza loop ever sets an `error` field. -/
structure MRecord where
  title : JStr
  url : JStr
  category : JStr
  imageUrl : JStr
  content : Option JStr
  author : Option JStr
  tags : Option (List JStr)
  hasVideo : Option Bool
  error : Option JStr
deriving DecidableEq, Repr

/-- The bare listing stub as the Meduza loop pushes it
(`detailedArticles.push(article)`). -/
def mBareRecord (article : MStub) : MRecord :=
  { title := article.title
    url := article.url
    category := article.category
    imageUrl := article.imageUrl
    content := none
    author := none
    tags := none
    hasVideo := none
    error := none }

/-- One iteration of the Meduza detail loop: an empty url skips straight to
pushing the stub; otherwise the navigate-and-evaluate sequence (`fetch`)
either yields details merged into the stub, or its exception is caught and
the bare stub is pushed — with no `error` field and no emptied content. -/
def meduzaProcessStub (fetch : MStub → Except JStr MDetails)
    (article : MStub) : MRecord :=
  if article.url.isEmpty then mBareRecord article
  else
    match fetch article with
    | .ok d =>
      { title := article.title
        url := article.url
        category := article.category
        imageUrl := article.imageUrl
        content := some d.content
        author := some d.author
        tags := some d.tags
        hasVideo := some d.hasVideo
        error := none }
    | .error _ => mBareRecord article

/-- The Meduza detail-fetch stage: the sequential loop pushes one record
per stub on every path. -/
def meduzaDetailStage (fetch : MStub → Except JStr MDetails)
    (stubs : List MStub) : List MRecord :=
  stubs.map (meduzaProcessStub fetch)

/-- A Meduza stub whose detail fetch will fail (counterexample input). -/
def mStub1 : MStub :=
  ⟨toCL "T", toCL "https://meduza.io/news/x", toCL "Новости", []⟩

/-- A fetch behaviour that raises on every attempt for every stub. -/
def mCexFetch : MStub → Except JStr MDetails :=
  fun _ => .error (toCL "net")

/-- The filtering predicate as the specification words it. -/
def specKeep (F : List JStr) (category : JStr) : Prop :=
  F = [] ∨ ∃ t ∈ F, strIncludes (lowerCL category) (lowerCL t) = true

instance (F : List JStr) (category : JStr) : Decidable (specKeep F category) := by
  unfold specKeep
  infer_instance

/-! ## Completion-order join (`Promise.all`) -/

/-- The all-empty stub, used only as a `getD` default. -/
def defaultStub : Stub := ⟨[], []⟩

/-- The per-task completion events: task `i` completes with value `f i`,
in the order given by `order`. -/
def completionList {β : Type} (f : Nat → β) (order : List Nat) : List (Nat × β) :=
  order.map (fun i => (i, f i))

/-- Re-associate a completion event with its originating index. -/
def lookupJoin {β : Type} (pairs : List (Nat × β)) (i : Nat) : Option β :=
  (pairs.find? (fun p => p.1 == i)).map Prod.snd

/-- The detail-fetch join, made completion-order explicit: the tasks finish
in the order `order`, and the joined output slots each result back at its
original listing index, as `Promise.all` does. -/
def rbcDetailJoin (fetch : Stub → Except JStr Details) (parsedAt : JStr)
    (stubs : List Stub) (order : List Nat) : List (Option Record) :=
  (List.range stubs.length).map
    (lookupJoin (completionList
      (fun i => processStub fetch parsedAt (stubs.getD i defaultStub)) order))

/-! ## Concrete inputs used by the witness theorems -/

/-- A navigation outcome map that fails on attempts 1 and 2 and succeeds
from attempt 3 on. -/
def w5outcomes : Nat → Except JStr Nat :=
  fun k => if 3 ≤ k then .ok 7 else .error (toCL "net")

/-- Fixed details returned by succeeding fetches in witnesses. -/
def w0details : Details :=
  { content := toCL "рост"
    author := toCL "X"
    tags := []
    publishedAt := toCL "2024"
    imageUrl := []
    hasVideo := false }

/-- A per-stub navigation behaviour failing twice then succeeding. -/
def w5nav : Stub → Nat → Except JStr Details :=
  fun _ k => if 3 ≤ k then .ok w0details else .error (toCL "net")

/-- Two distinct stubs for the witnesses. -/
def wStubA : Stub := ⟨toCL "A", toCL "https://www.rbc.ru/politics/a"⟩

/-- Second witness stub. -/
def wStubB : Stub := ⟨toCL "B", toCL "https://www.rbc.ru/economics/b"⟩

/-- A fetch map that fails exactly on `wStubA`. -/
def w3fetch : Stub → Except JStr Details :=
  fun s => if s = wStubA then .error (toCL "timeout") else .ok w0details

end FiveUA

namespace FiveUA

/-! ## Helper lemmas -/

/-- The retry loop makes at most `made + remaining` invocations in total. -/
theorem tryWithRetryGo_attempts_le {ε α : Type} (outcomes : Nat → Except ε α)
    (rd : Nat) :
    ∀ (remaining attempt : Nat) (lastErr : Option ε) (made delayed : Nat),
      (tryWithRetryGo outcomes rd remaining attempt lastErr made delayed).attemptsMade
        ≤ made + remaining := by
  intro remaining
  induction remaining with
  | zero =>
    intro attempt lastErr made delayed
    simp [tryWithRetryGo]
  | succ r ih =>
    intro attempt lastErr made delayed
    simp only [tryWithRetryGo]
    cases houtcome : outcomes attempt with
    | ok a => simp
    | error e =>
      have h := ih (attempt + 1) (some e) (made + 1) (delayed + rd)
      show (tryWithRetryGo outcomes rd r (attempt + 1) (some e) (made + 1)
        (delayed + rd)).attemptsMade ≤ made + (r + 1)
      omega

/-- If every declared strategy came back empty, the resolver finds nothing. -/
theorem firstNonEmpty_all_empty {E : Type} :
    ∀ ls : List (List E), (∀ s ∈ ls, s = []) → firstNonEmpty ls = none := by
  intro ls
  induction ls with
  | nil => intro _; rfl
  | cons s rest ih =>
    intro h
    have hs : s = [] := h s (by simp)
    subst hs
    simp only [firstNonEmpty, List.isEmpty_nil, if_pos rfl]
    exact ih (fun x hx => h x (by simp [hx]))

/-- The first non-empty strategy result wins, whatever follows it. -/
theorem firstNonEmpty_prefix_hit {E : Type} :
    ∀ (pre : List (List E)) (s : List E) (rest : List (List E)),
      (∀ x ∈ pre, x = []) → s ≠ [] →
      firstNonEmpty (pre ++ s :: rest) = some s := by
  intro pre
  induction pre with
  | nil =>
    intro s rest _ hs
    simp [firstNonEmpty, List.isEmpty_iff, hs]
  | cons p pre2 ih =>
    intro s rest hall hs
    have hp : p = [] := hall p (by simp)
    subst hp
    simp only [List.cons_append, firstNonEmpty, List.isEmpty_nil, if_pos rfl]
    exact ih s rest (fun x hx => hall x (by simp [hx])) hs

/-- The code's boolean filter agrees with the specification predicate. -/
theorem categoryMatches_eq_specKeep (F : List JStr) (c : JStr) :
    categoryMatches F c = decide (specKeep F c) := by
  have h : categoryMatches F c = true ↔ specKeep F c := by
    simp [categoryMatches, specKeep, List.any_eq_true, List.isEmpty_iff]
  cases hcm : categoryMatches F c <;> cases hd : decide (specKeep F c) <;>
    simp_all

/-- Looking an index up among the completion events recovers that task's
result, whatever the completion order was. -/
theorem lookup_completion {β : Type} (f : Nat → β) :
    ∀ (order : List Nat) (i : Nat), i ∈ order →
      lookupJoin (completionList f order) i = some (f i) := by
  intro order
  induction order with
  | nil => intro i hi; simp at hi
  | cons k rest ih =>
    intro i hi
    simp only [completionList, List.map_cons, lookupJoin, List.find?_cons]
    cases hk : ((k, f k).1 == i)
    · have hne : k ≠ i := by simpa using hk
      have hrest : i ∈ rest := by
        rcases List.mem_cons.mp hi with h | h
        · exact absurd h.symm hne
        · exact h
      simpa [lookupJoin, completionList] using ih i hrest
    · have hki : k = i := by simpa using hk
      subst hki
      simp

/-- Exactly one list position satisfies `p` ⇒ `countP p = 1`. -/
theorem countP_eq_one_of_unique {γ : Type} (p : γ → Bool) :
    ∀ (l : List γ) (j : Nat) (hj : j < l.length),
      p (l.get ⟨j, hj⟩) = true →
      (∀ (i : Nat) (hi : i < l.length), i ≠ j → p (l.get ⟨i, hi⟩) = false) →
      l.countP p = 1 := by
  intro l
  induction l with
  | nil => intro j hj; simp at hj
  | cons a t ih =>
    intro j hj hpj hother
    cases j with
    | zero =>
      have hpa : p a = true := hpj
      have htz : t.countP p = 0 := by
        rw [List.countP_eq_zero]
        intro x hx
        rw [List.mem_iff_getElem] at hx
        obtain ⟨i, hi, hix⟩ := hx
        have h := hother (i + 1) (by simpa using Nat.succ_lt_succ hi) (by omega)
        simpa [hix] using h
      simp [List.countP_cons, hpa, htz]
    | succ n =>
      have hpa : p a = false := hother 0 (by omega) (by omega)
      have hn : n < t.length := by simpa using Nat.lt_of_succ_lt_succ hj
      have ht : t.countP p = 1 := by
        refine ih n hn hpj ?_
        intro i hi hne
        have h := hother (i + 1) (by simpa using Nat.succ_lt_succ hi) (by omega)
        exact h
      simp [List.countP_cons, hpa, ht]

/-- A per-article task carries a sentiment exactly when it is non-degraded. -/
theorem processStub_sentiment_iff_no_error (fetch : Stub → Except JStr Details)
    (parsedAt : JStr) (s : Stub) :
    (processStub fetch parsedAt s).sentiment.isSome
      = (processStub fetch parsedAt s).error.isNone := by
  unfold processStub
  cases fetch s <;> rfl

/-- The three sentiment buckets together count exactly the records that
carry a sentiment object. -/
theorem stats_sum_eq_countP (l : List Record) :
    (sentimentStats l).1 + (sentimentStats l).2.1 + (sentimentStats l).2.2
      = l.countP (fun r => r.sentiment.isSome) := by
  induction l with
  | nil => rfl
  | cons r t ih =>
    simp only [sentimentStats, List.countP_cons] at ih ⊢
    cases hr : r.sentiment with
    | none => simp [hr, ih]
    | some s =>
      cases hs : s.sentiment <;> simp [hr, hs] <;> omega

/-- Claim C6: sentiment scoring lowercases, splits on whitespace, counts
tokens containing a positive (resp. negative) lexicon substring, sets
`neutral = tokens − positive − negative` (an `Int`, negative when a token
matches both lexicons, as `"рост-кризис"` shows), labels by comparing the
two counts, and on `"рост рост кризис"` yields
`{positive := 2, negative := 1, neutral := 0, sentiment := positive}`. -/
theorem sentiment_scoring_spec :
    (∀ text : JStr,
      (getTextSentiment text).positive =
        (splitWs (lowerCL text)).countP (tokenMatches positiveWords) ∧
      (getTextSentiment text).negative =
        (splitWs (lowerCL text)).countP (tokenMatches negativeWords) ∧
      (getTextSentiment text).neutral =
        ((splitWs (lowerCL text)).length : Int) -
          (getTextSentiment text).positive - (getTextSentiment text).negative ∧
      (getTextSentiment text).sentiment =
        (if (getTextSentiment text).negative < (getTextSentiment text).positive
         then SLabel.positive
         else if (getTextSentiment text).positive < (getTextSentiment text).negative
         then SLabel.negative
         else SLabel.neutral)) ∧
    getTextSentiment (toCL "рост рост кризис") =
      { positive := 2, negative := 1, neutral := 0, sentiment := SLabel.positive } ∧
    (getTextSentiment (toCL "рост-кризис")).neutral = -1 := by
  refine ⟨fun text => ⟨rfl, rfl, rfl, rfl⟩, by decide, by decide⟩

/-- Claim C5: with `{maxAttempts: 3, delayMs: d}` a navigation function
failing on its first two invocations and succeeding on the third is invoked
exactly 3 times; the retry wrapper returns the successful result after
waiting `d` after each of the two transient failures, and the per-article
task built on it yields a non-degraded record; in general the wrapper makes
at most `maxAttempts` invocations. -/
theorem retry_policy_spec {α : Type} (outcomes : Nat → Except JStr α)
    (a : α) (e1 e2 : JStr) (d : Nat) (nav : Stub → Nat → Except JStr Details)
    (st : Stub) (dts : Details) (parsedAt : JStr)
    (h1 : outcomes 1 = .error e1) (h2 : outcomes 2 = .error e2)
    (h3 : outcomes 3 = .ok a)
    (hn1 : nav st 1 = .error e1) (hn2 : nav st 2 = .error e2)
    (hn3 : nav st 3 = .ok dts) :
    (tryWithRetry outcomes 3 d).result = .ok a ∧
    (tryWithRetry outcomes 3 d).attemptsMade = 3 ∧
    (tryWithRetry outcomes 3 d).delayedMs = d + d ∧
    (∀ (out2 : Nat → Except JStr α) (m rd : Nat),
       (tryWithRetry out2 m rd).attemptsMade ≤ m) ∧
    (processStub (rbcFetchWithRetry nav 3 d) parsedAt st).error = none := by
  refine ⟨?_, ?_, ?_, ?_, ?_⟩
  · simp [tryWithRetry, tryWithRetryGo, h1, h2, h3]
  · simp [tryWithRetry, tryWithRetryGo, h1, h2, h3]
  · simp [tryWithRetry, tryWithRetryGo, h1, h2, h3]
  · intro out2 m rd
    have h := tryWithRetryGo_attempts_le out2 rd m 1 none 0 0
    simpa [tryWithRetry] using h
  · simp [processStub, rbcFetchWithRetry, tryWithRetry, tryWithRetryGo,
      hn1, hn2, hn3]

/-- Witness for claim C5 at a concrete failing-twice navigation map. -/
theorem retry_policy_spec_witness :
    (tryWithRetry w5outcomes 3 5).result = .ok 7 ∧
    (tryWithRetry w5outcomes 3 5).attemptsMade = 3 ∧
    (tryWithRetry w5outcomes 3 5).delayedMs = 5 + 5 ∧
    (∀ (out2 : Nat → Except JStr Nat) (m rd : Nat),
       (tryWithRetry out2 m rd).attemptsMade ≤ m) ∧
    (processStub (rbcFetchWithRetry w5nav 3 5) (toCL "t") wStubA).error = none :=
  retry_policy_spec w5outcomes 7 (toCL "net") (toCL "net") 5 w5nav wStubA
    w0details (toCL "t") rfl rfl rfl rfl rfl rfl

/-- Claim C7: the cascade resolver returns the match set of the first
strategy, in declared order, that yields at least one match — whatever
comes after it is irrelevant; when every declared strategy yields nothing
it falls back to the generic anchor heuristic, and when that too is empty
the result is the empty list (a value, not an error). -/
theorem cascade_resolver_spec {E : Type} (strategies : List (List E))
    (fallback : List E) :
    (∀ (i : Nat) (hi : i < strategies.length),
       strategies.get ⟨i, hi⟩ ≠ [] →
       (∀ (j : Nat) (hj : j < i), strategies.get ⟨j, by omega⟩ = []) →
       ∀ rest : List (List E),
         resolveCascade (strategies.take (i + 1) ++ rest) fallback
           = strategies.get ⟨i, hi⟩) ∧
    ((∀ s ∈ strategies, s = []) → resolveCascade strategies fallback = fallback) ∧
    ((∀ s ∈ strategies, s = []) → fallback = [] →
       resolveCascade strategies fallback = []) := by
  refine ⟨?_, ?_, ?_⟩
  · intro i hi hne hpre rest
    have htake : strategies.take (i + 1)
        = strategies.take i ++ [strategies.get ⟨i, hi⟩] := by
      rw [List.take_succ]
      congr 1
      rw [List.getElem?_eq_getElem hi]
      rfl
    have hpre2 : ∀ x ∈ strategies.take i, x = [] := by
      intro x hx
      rw [List.mem_iff_getElem] at hx
      obtain ⟨j, hj, hjx⟩ := hx
      have hj2 : j < i := by
        have := hj
        simp [List.length_take] at this
        omega
      have hj3 : j < strategies.length := by omega
      rw [List.getElem_take] at hjx
      rw [← hjx]
      exact hpre j hj2
    rw [htake, List.append_assoc, List.cons_append]
    show resolveCascade
      (strategies.take i ++ strategies.get ⟨i, hi⟩ :: ([] ++ rest)) fallback
      = strategies.get ⟨i, hi⟩
    unfold resolveCascade
    rw [firstNonEmpty_prefix_hit (strategies.take i) _ _ hpre2 hne]
  · intro h
    unfold resolveCascade
    rw [firstNonEmpty_all_empty strategies h]
  · intro h hfb
    unfold resolveCascade
    rw [firstNonEmpty_all_empty strategies h, hfb]

/-- Witness for claim C7: the second strategy is the first non-empty one
and wins; with every strategy empty the fallback is returned. -/
theorem cascade_resolver_spec_witness :
    resolveCascade (([([] : List Nat), [5]]).take (1 + 1) ++ [[9]]) [7] = [5] ∧
    resolveCascade [([] : List Nat), []] [7] = [7] := by
  constructor
  · exact (cascade_resolver_spec [([] : List Nat), [5]] [7]).1 1 (by decide)
      (by decide)
      (fun j hj => by
        cases j with
        | zero => rfl
        | succ n => omega)
      [[9]]
  · exact (cascade_resolver_spec [([] : List Nat), []] [7]).2.1 (by decide)

/-- Claim C8, amended: the RBC JSON, RBC CSV and Meduza CSV serializers
treat zero records as a no-op that reports "nothing to save" and writes no
file; the Meduza JSON serializer has no such guard and writes the file
unconditionally — `[]` for zero records. -/
theorem serializer_empty_guard_spec :
    rbcSaveToJson [] = .error (toCL "Нет данных для сохранения в JSON") ∧
    rbcSaveToCsv [] = .error (toCL "Нет данных для сохранения в CSV") ∧
    meduzaSaveToCsv [] = .error (toCL "Нет данных для сохранения в CSV") ∧
    meduzaSaveToJson [] = .ok (toCL "[]") :=
  ⟨rfl, rfl, rfl, rfl⟩

/-- Counterexample to claim C8 as stated: the Meduza `saveToJson` called
with zero records produces file content (the JSON text `[]`) instead of
skipping the write. -/
theorem serializer_empty_guard_counterexample :
    meduzaSaveToJson [] = .ok (toCL "[]") := rfl

/-- Claim C9: the category filter keeps exactly the stubs whose category
label, compared case-insensitively, contains some term of the filter as a
substring, and the empty filter keeps every stub unchanged. -/
theorem category_filter_spec (F : List JStr) (S : List MStub) :
    meduzaFilterStubs F S = S.filter (fun a => decide (specKeep F a.category)) ∧
    (∀ a : MStub, a ∈ meduzaFilterStubs F S ↔ a ∈ S ∧ specKeep F a.category) ∧
    (F = [] → meduzaFilterStubs F S = S) := by
  refine ⟨?_, ?_, ?_⟩
  · unfold meduzaFilterStubs
    exact List.filter_congr (fun a _ => categoryMatches_eq_specKeep F a.category)
  · intro a
    simp [meduzaFilterStubs, List.mem_filter, categoryMatches_eq_specKeep]
  · intro h
    subst h
    simp [meduzaFilterStubs, categoryMatches]

/-- Witness for claim C9 at a concrete filter and stub set. -/
theorem category_filter_spec_witness :
    meduzaFilterStubs [] [⟨toCL "T", toCL "u", toCL "Мир", toCL ""⟩]
      = [⟨toCL "T", toCL "u", toCL "Мир", toCL ""⟩] :=
  (category_filter_spec [] [⟨toCL "T", toCL "u", toCL "Мир", toCL ""⟩]).2.2 rfl

/-- Counterexample to claim C3 as stated: the claim covers both detail
stages, but in the Meduza stage a batch whose single stub's fetch raises on
every attempt yields a full-length sequence with ZERO `error`-bearing
records — the catch pushes the bare listing stub, with no `error` field and
no `content` at all, rather than a degraded record. -/
theorem meduza_failure_isolation_counterexample :
    (meduzaDetailStage mCexFetch [mStub1]).length = 1 ∧
    (meduzaDetailStage mCexFetch [mStub1]).countP (fun r => r.error.isSome)
      = 0 ∧
    meduzaDetailStage mCexFetch [mStub1] = [mBareRecord mStub1] ∧
    (mBareRecord mStub1).error = none ∧
    (mBareRecord mStub1).content = none := by
  decide

/-- Claim C3, amended: in the RBC (concurrent) detail-fetch stage, if
exactly one stub's detail fetch fails (after all its retries), the stage
still returns one record per stub, exactly one record bears an `error`,
that record has empty content and defaulted author/tags/hasVideo and no
sentiment, and every other record is extracted normally from its fetched
details — no exception reaches the caller (the stage is a total function).
The Meduza stage isolates the failure too, but pushes the bare stub without
an `error` field or emptied content (see its counterexample). -/
theorem failure_isolation_spec (fetch : Stub → Except JStr Details)
    (parsedAt : JStr) (stubs : List Stub) (j : Nat) (hj : j < stubs.length)
    (e : JStr)
    (hfail : fetch stubs[j] = .error e)
    (hok : ∀ (i : Nat) (hi : i < stubs.length), i ≠ j →
       ∃ d, fetch stubs[i] = .ok d) :
    (rbcDetailStage fetch parsedAt stubs).length = stubs.length ∧
    (rbcDetailStage fetch parsedAt stubs).countP (fun r => r.error.isSome) = 1 ∧
    (∀ hj2 : j < (rbcDetailStage fetch parsedAt stubs).length,
       (rbcDetailStage fetch parsedAt stubs)[j].error = some e ∧
       (rbcDetailStage fetch parsedAt stubs)[j].content = [] ∧
       (rbcDetailStage fetch parsedAt stubs)[j].author = toCL "РБК" ∧
       (rbcDetailStage fetch parsedAt stubs)[j].tags = [] ∧
       (rbcDetailStage fetch parsedAt stubs)[j].hasVideo = false ∧
       (rbcDetailStage fetch parsedAt stubs)[j].sentiment = none) ∧
    (∀ (i : Nat) (hi : i < stubs.length), i ≠ j →
       ∀ hi2 : i < (rbcDetailStage fetch parsedAt stubs).length,
         (rbcDetailStage fetch parsedAt stubs)[i].error = none ∧
         ∀ d, fetch stubs[i] = .ok d →
           (rbcDetailStage fetch parsedAt stubs)[i].content = d.content ∧
           (rbcDetailStage fetch parsedAt stubs)[i].author = d.author ∧
           (rbcDetailStage fetch parsedAt stubs)[i].tags = d.tags ∧
           (rbcDetailStage fetch parsedAt stubs)[i].hasVideo = d.hasVideo ∧
           (rbcDetailStage fetch parsedAt stubs)[i].sentiment
             = some (getTextSentiment d.content)) := by
  have hlen : (rbcDetailStage fetch parsedAt stubs).length = stubs.length :=
    List.length_map _ _
  have hget : ∀ (i : Nat) (hi : i < stubs.length)
      (hi2 : i < (rbcDetailStage fetch parsedAt stubs).length),
      (rbcDetailStage fetch parsedAt stubs)[i]
        = processStub fetch parsedAt stubs[i] := by
    intro i hi hi2
    simp [rbcDetailStage]
  refine ⟨hlen, ?_, ?_, ?_⟩
  · refine countP_eq_one_of_unique _ _ j (hlen ▸ hj) ?_ ?_
    · rw [List.get_eq_getElem, hget j hj (hlen ▸ hj)]
      simp [processStub, hfail]
    · intro i hi2 hne
      rw [List.get_eq_getElem, hget i (hlen ▸ hi2) hi2]
      obtain ⟨d, hd⟩ := hok i (hlen ▸ hi2) hne
      simp [processStub, hd]
  · intro hj2
    rw [hget j hj hj2]
    simp [processStub, hfail]
  · intro i hi hne hi2
    rw [hget i hi hi2]
    obtain ⟨d0, hd0⟩ := hok i hi hne
    constructor
    · simp [processStub, hd0]
    · intro d hd
      simp [processStub, hd]

/-- Witness for claim C3: two stubs, the first of which always fails. -/
theorem failure_isolation_spec_witness :
    (rbcDetailStage w3fetch (toCL "t") [wStubA, wStubB]).length = 2 ∧
    (rbcDetailStage w3fetch (toCL "t") [wStubA, wStubB]).countP
      (fun r => r.error.isSome) = 1 := by
  have h := failure_isolation_spec w3fetch (toCL "t") [wStubA, wStubB] 0
    (by decide) (toCL "timeout") rfl
    (by
      intro i hi hne
      have hi2 : i < 2 := by simpa using hi
      interval_cases i
      · exact absurd rfl hne
      · exact ⟨w0details, rfl⟩)
  exact ⟨h.1, h.2.1⟩

/-- Claim C4: the joined output of the concurrent detail fetches equals the
in-listing-order map of the per-stub task, for every completion order that
covers all indices — position `i` of the result is derived from stub `i`. -/
theorem join_preserves_listing_order (fetch : Stub → Except JStr Details)
    (parsedAt : JStr) (stubs : List Stub) (order : List Nat)
    (hcover : ∀ i, i < stubs.length → i ∈ order) :
    rbcDetailJoin fetch parsedAt stubs order
      = (rbcDetailStage fetch parsedAt stubs).map some := by
  unfold rbcDetailJoin rbcDetailStage
  apply List.ext_getElem
  · simp
  · intro i h1 h2
    simp only [List.getElem_map, List.getElem_range]
    have hi : i < stubs.length := by simpa using h1
    rw [lookup_completion _ order i (hcover i hi)]
    congr 2
    rw [List.getD_eq_getElem stubs defaultStub hi]

/-- Witness for claim C4: two stubs completing in reversed order. -/
theorem join_preserves_listing_order_witness :
    rbcDetailJoin w3fetch (toCL "t") [wStubA, wStubB] [1, 0]
      = (rbcDetailStage w3fetch (toCL "t") [wStubA, wStubB]).map some :=
  join_preserves_listing_order w3fetch (toCL "t") [wStubA, wStubB] [1, 0]
    (by
      intro i hi
      have hi2 : i < 2 := by simpa using hi
      interval_cases i
      · decide
      · decide)

/-- Claim C10: a record of the detail stage carries a sentiment object
exactly when it is non-degraded, so the three `sentimentStats` buckets sum
to the number of non-degraded records. -/
theorem sentiment_stats_spec (fetch : Stub → Except JStr Details)
    (parsedAt : JStr) (stubs : List Stub) :
    (∀ r ∈ rbcDetailStage fetch parsedAt stubs,
       r.sentiment.isSome = r.error.isNone) ∧
    (sentimentStats (rbcDetailStage fetch parsedAt stubs)).1 +
      (sentimentStats (rbcDetailStage fetch parsedAt stubs)).2.1 +
      (sentimentStats (rbcDetailStage fetch parsedAt stubs)).2.2
      = (rbcDetailStage fetch parsedAt stubs).countP
          (fun r => r.error.isNone) := by
  have hmem : ∀ r ∈ rbcDetailStage fetch parsedAt stubs,
      r.sentiment.isSome = r.error.isNone := by
    intro r hr
    rw [rbcDetailStage, List.mem_map] at hr
    obtain ⟨s, _, hs⟩ := hr
    rw [← hs]
    exact processStub_sentiment_iff_no_error fetch parsedAt s
  refine ⟨hmem, ?_⟩
  rw [stats_sum_eq_countP]
  exact List.countP_congr (fun r hr => by rw [hmem r hr])

/-- A `Map.set` entry is either the freshly written one or an untouched
entry whose key differs from the written key. -/
theorem mapInsert_key_cases (m : List (JStr × Stub)) (k : JStr) (v : Stub) :
    ∀ p ∈ mapInsert m k v, p = (k, v) ∨ (p ∈ m ∧ p.1 ≠ k) := by
  intro p hp
  unfold mapInsert at hp
  split at hp
  · rename_i hmem
    rw [List.mem_map] at hp
    obtain ⟨q, hq, hqe⟩ := hp
    by_cases hqk : q.1 = k
    · rw [if_pos hqk] at hqe
      exact Or.inl hqe.symm
    · rw [if_neg hqk] at hqe
      exact Or.inr ⟨hqe ▸ hq, hqe ▸ hqk⟩
  · rename_i hmem
    rw [List.mem_append] at hp
    rcases hp with hp | hp
    · refine Or.inr ⟨hp, fun hpk => hmem ?_⟩
      rw [List.any_eq_true]
      exact ⟨p, hp, by simp [hpk]⟩
    · rw [List.mem_singleton] at hp
      exact Or.inl hp

/-- Writing an existing key leaves the key sequence unchanged. -/
theorem mapInsert_keys_present (m : List (JStr × Stub)) (k : JStr) (v : Stub)
    (hmem : m.any (fun q => decide (q.1 = k)) = true) :
    (mapInsert m k v).map Prod.fst = m.map Prod.fst := by
  unfold mapInsert
  rw [if_pos hmem, List.map_map]
  apply List.map_congr_left
  intro q _
  by_cases hqk : q.1 = k
  · simp [hqk]
  · simp [hqk]

/-- Writing a new key appends it to the key sequence. -/
theorem mapInsert_keys_absent (m : List (JStr × Stub)) (k : JStr) (v : Stub)
    (hmem : ¬ m.any (fun q => decide (q.1 = k)) = true) :
    (mapInsert m k v).map Prod.fst = m.map Prod.fst ++ [k] := by
  unfold mapInsert
  rw [if_neg hmem, List.map_append]
  rfl

/-- `fsDedup` only consults `seen` through membership. -/
theorem fsDedup_congr : ∀ (l s1 s2 : List JStr), (∀ u, u ∈ s1 ↔ u ∈ s2) →
    fsDedup s1 l = fsDedup s2 l := by
  intro l
  induction l with
  | nil => intro s1 s2 _; rfl
  | cons u rest ih =>
    intro s1 s2 h
    simp only [fsDedup]
    by_cases hu : u ∈ s1
    · rw [if_pos hu, if_pos ((h u).mp hu)]
      exact ih s1 s2 h
    · rw [if_neg hu, if_neg (fun hx => hu ((h u).mpr hx))]
      congr 1
      refine ih (u :: s1) (u :: s2) ?_
      intro x
      simp [List.mem_cons, h x]

/-- `fsDedup` yields distinct urls, none of them already seen. -/
theorem fsDedup_spec : ∀ (l seen : List JStr),
    (fsDedup seen l).Nodup ∧ ∀ u ∈ fsDedup seen l, u ∉ seen := by
  intro l
  induction l with
  | nil => intro seen; exact ⟨List.nodup_nil, by simp [fsDedup]⟩
  | cons u rest ih =>
    intro seen
    simp only [fsDedup]
    by_cases hu : u ∈ seen
    · rw [if_pos hu]
      exact ih seen
    · rw [if_neg hu]
      obtain ⟨hnd, hmem⟩ := ih (u :: seen)
      refine ⟨?_, ?_⟩
      · rw [List.nodup_cons]
        exact ⟨fun hx => (hmem u hx) (by simp), hnd⟩
      · intro x hx
        rw [List.mem_cons] at hx
        rcases hx with hx | hx
        · subst hx
          exact hu
        · intro hxs
          exact (hmem x hx) (by simp [hxs])

/-- Folding `Map.set` over the stubs: the final key sequence is the seed's
keys followed by the first-seen deduplication of the stub urls. -/
theorem buildUrlMapGo_keys : ∀ (l : List Stub) (m : List (JStr × Stub)),
    (l.foldl (fun acc a => mapInsert acc a.url a) m).map Prod.fst
      = m.map Prod.fst ++ fsDedup (m.map Prod.fst) (l.map (fun a => a.url)) := by
  intro l
  induction l with
  | nil => intro m; simp [fsDedup]
  | cons a rest ih =>
    intro m
    simp only [List.foldl_cons, List.map_cons]
    by_cases hmem : m.any (fun q => decide (q.1 = a.url)) = true
    · rw [ih (mapInsert m a.url a), mapInsert_keys_present m a.url a hmem]
      have ha : a.url ∈ m.map Prod.fst := by
        rw [List.any_eq_true] at hmem
        obtain ⟨q, hq, hq2⟩ := hmem
        rw [decide_eq_true_iff] at hq2
        exact List.mem_map.mpr ⟨q, hq, hq2⟩
      simp only [fsDedup, if_pos ha]
    · rw [ih (mapInsert m a.url a), mapInsert_keys_absent m a.url a hmem]
      have ha : a.url ∉ m.map Prod.fst := by
        intro hx
        apply hmem
        rw [List.any_eq_true]
        rw [List.mem_map] at hx
        obtain ⟨q, hq, hq2⟩ := hx
        exact ⟨q, hq, by simp [hq2]⟩
      simp only [fsDedup, if_neg ha]
      rw [List.append_assoc, List.singleton_append]
      congr 2
      apply fsDedup_congr
      intro x
      constructor
      · intro hx
        rcases List.mem_append.mp hx with h | h
        · exact List.mem_cons.mpr (Or.inr h)
        · exact List.mem_cons.mpr (Or.inl (List.mem_singleton.mp h))
      · intro hx
        rcases List.mem_cons.mp hx with h | h
        · exact List.mem_append.mpr (Or.inr (List.mem_singleton.mpr h))
        · exact List.mem_append.mpr (Or.inl h)

/-- Folding `Map.set` over the stubs: every surviving entry is keyed by its
stub's url and holds the last stub of the input with that url (or came
untouched from the seed when the url never occurs). -/
theorem buildUrlMapGo_entries : ∀ (l : List Stub) (m : List (JStr × Stub)),
    (∀ p ∈ m, p.1 = p.2.url) →
    ∀ p ∈ l.foldl (fun acc a => mapInsert acc a.url a) m,
      p.1 = p.2.url ∧
      (lastWithUrl l p.1 = some p.2 ∨ (lastWithUrl l p.1 = none ∧ p ∈ m)) := by
  intro l
  induction l with
  | nil =>
    intro m hinv p hp
    exact ⟨hinv p hp, Or.inr ⟨rfl, hp⟩⟩
  | cons a rest ih =>
    intro m hinv p hp
    simp only [List.foldl_cons] at hp
    have hinv2 : ∀ q ∈ mapInsert m a.url a, q.1 = q.2.url := by
      intro q hq
      rcases mapInsert_key_cases m a.url a q hq with h | ⟨hqm, _⟩
      · rw [h]
      · exact hinv q hqm
    obtain ⟨hpkey, hrest⟩ := ih (mapInsert m a.url a) hinv2 p hp
    refine ⟨hpkey, ?_⟩
    rcases hrest with hsome | ⟨hnone, hpm⟩
    · left
      simp only [lastWithUrl, hsome]
    · rcases mapInsert_key_cases m a.url a p hpm with h | ⟨hpm2, hpk⟩
      · left
        subst h
        simp only [lastWithUrl, hnone]
        simp
      · right
        refine ⟨?_, hpm2⟩
        simp only [lastWithUrl, hnone]
        rw [if_neg (fun hcon => hpk hcon.symm)]

/-- Under the key-invariant, reading entry urls equals reading entry keys. -/
theorem map_snd_url_eq_keys (m : List (JStr × Stub))
    (h : ∀ p ∈ m, p.1 = p.2.url) :
    (m.map Prod.snd).map (fun s => s.url) = m.map Prod.fst := by
  rw [List.map_map]
  apply List.map_congr_left
  intro p hp
  exact (h p hp).symm

/-- The deduplication facts for an arbitrary discovered-stub list: distinct
urls in first-seen order, each kept stub being the last occurrence of its
url. -/
theorem uniqueArticles_core (l : List Stub) :
    ((uniqueArticles l).map (fun s => s.url)).Nodup ∧
    (uniqueArticles l).map (fun s => s.url) = firstSeenUrls l ∧
    ∀ s ∈ uniqueArticles l, lastWithUrl l s.url = some s := by
  have hinv : ∀ p ∈ buildUrlMap l,
      p.1 = p.2.url ∧
      (lastWithUrl l p.1 = some p.2 ∨
        (lastWithUrl l p.1 = none ∧ p ∈ ([] : List (JStr × Stub)))) :=
    buildUrlMapGo_entries l [] (by simp)
  have hinv1 : ∀ p ∈ buildUrlMap l, p.1 = p.2.url := fun p hp => (hinv p hp).1
  have hkeys : (buildUrlMap l).map Prod.fst
      = fsDedup [] (l.map (fun a => a.url)) := by
    have h := buildUrlMapGo_keys l []
    simpa [buildUrlMap] using h
  have hmapurl : (uniqueArticles l).map (fun s => s.url)
      = (buildUrlMap l).map Prod.fst :=
    map_snd_url_eq_keys (buildUrlMap l) hinv1
  refine ⟨?_, ?_, ?_⟩
  · rw [hmapurl, hkeys]
    exact (fsDedup_spec (l.map (fun a => a.url)) []).1
  · rw [hmapurl, hkeys]
    rfl
  · intro s hs
    rw [uniqueArticles, List.mem_map] at hs
    obtain ⟨p, hp, hps⟩ := hs
    rcases (hinv p hp).2 with h2 | ⟨_, h3⟩
    · rw [← hps, ← (hinv p hp).1]
      exact h2
    · simp at h3

/-- Claim C1, amended: the deduplicated stub sequence has no duplicate
urls, preserves first-seen url order, and when several discovered entries
share a url the LAST-occurring stub's fields are kept (JavaScript `Map.set`
overwrites the value of an existing key while keeping its position); the
listing output after filtering and truncation likewise has distinct urls. -/
theorem dedup_spec (l : List Stub) :
    ((uniqueArticles l).map (fun s => s.url)).Nodup ∧
    (uniqueArticles l).map (fun s => s.url) = firstSeenUrls l ∧
    (∀ s ∈ uniqueArticles l, lastWithUrl l s.url = some s) ∧
    ∀ n : Nat, ((rbcListing l n).map (fun s => s.url)).Nodup := by
  obtain ⟨h1, h2, h3⟩ := uniqueArticles_core l
  refine ⟨h1, h2, h3, ?_⟩
  intro n
  have hf := (uniqueArticles_core
    (l.filter (fun a => !a.title.isEmpty && !a.url.isEmpty))).1
  unfold rbcListing
  exact List.Nodup.sublist
    (List.Sublist.map (fun s : Stub => s.url) (List.take_sublist n _)) hf

/-- `Set.add` preserves distinctness of the collected keys. -/
theorem addKey_nodup (acc : List JStr) (k : JStr) (h : acc.Nodup) :
    (addKey acc k).Nodup := by
  unfold addKey
  split
  · exact h
  · rename_i hk
    rw [List.nodup_append]
    refine ⟨h, List.nodup_singleton k, ?_⟩
    intro x hx hxk
    rw [List.mem_singleton] at hxk
    exact hk (hxk ▸ hx)

/-- Membership after `Set.add`. -/
theorem mem_addKey (acc : List JStr) (k x : JStr) :
    x ∈ addKey acc k ↔ x ∈ acc ∨ x = k := by
  unfold addKey
  split
  · rename_i hk
    constructor
    · exact Or.inl
    · rintro (h | h)
      · exact h
      · exact h ▸ hk
  · simp [List.mem_append]

/-- Collecting one record's keys preserves distinctness. -/
theorem keysFold_nodup : ∀ (item : CsvRecord) (acc : List JStr), acc.Nodup →
    (item.foldl (fun a kv => addKey a kv.1) acc).Nodup := by
  intro item
  induction item with
  | nil => intro acc h; exact h
  | cons kv rest ih => intro acc h; exact ih _ (addKey_nodup _ _ h)

/-- Membership after collecting one record's keys. -/
theorem mem_keysFold : ∀ (item : CsvRecord) (acc : List JStr) (x : JStr),
    x ∈ item.foldl (fun a kv => addKey a kv.1) acc
      ↔ x ∈ acc ∨ ∃ kv ∈ item, kv.1 = x := by
  intro item
  induction item with
  | nil => intro acc x; simp
  | cons kv rest ih =>
    intro acc x
    simp only [List.foldl_cons]
    rw [ih, mem_addKey]
    constructor
    · rintro ((h | h) | h)
      · exact Or.inl h
      · exact Or.inr ⟨kv, by simp, h.symm⟩
      · obtain ⟨kv2, h2, h3⟩ := h
        exact Or.inr ⟨kv2, by simp [h2], h3⟩
    · rintro (h | ⟨kv2, h2, h3⟩)
      · exact Or.inl (Or.inl h)
      · rw [List.mem_cons] at h2
        rcases h2 with h2 | h2
        · subst h2
          exact Or.inl (Or.inr h3.symm)
        · exact Or.inr ⟨kv2, h2, h3⟩

/-- Collecting every record's keys preserves distinctness. -/
theorem allKeysFold_nodup : ∀ (data : List CsvRecord) (acc : List JStr),
    acc.Nodup →
    (data.foldl (fun acc2 item => item.foldl (fun a kv => addKey a kv.1) acc2)
      acc).Nodup := by
  intro data
  induction data with
  | nil => intro acc h; exact h
  | cons item rest ih => intro acc h; exact ih _ (keysFold_nodup item acc h)

/-- Membership in the collected key union. -/
theorem mem_allKeysFold : ∀ (data : List CsvRecord) (acc : List JStr) (x : JStr),
    x ∈ data.foldl (fun acc2 item => item.foldl (fun a kv => addKey a kv.1) acc2) acc
      ↔ x ∈ acc ∨ ∃ item ∈ data, ∃ kv ∈ item, kv.1 = x := by
  intro data
  induction data with
  | nil => intro acc x; simp
  | cons item rest ih =>
    intro acc x
    simp only [List.foldl_cons]
    rw [ih, mem_keysFold]
    constructor
    · rintro ((h | h) | h)
      · exact Or.inl h
      · obtain ⟨kv, h1, h2⟩ := h
        exact Or.inr ⟨item, by simp, kv, h1, h2⟩
      · obtain ⟨item2, h1, kv, h2, h3⟩ := h
        exact Or.inr ⟨item2, by simp [h1], kv, h2, h3⟩
    · rintro (h | ⟨item2, h1, kv, h2, h3⟩)
      · exact Or.inl (Or.inl h)
      · rw [List.mem_cons] at h1
        rcases h1 with h1 | h1
        · subst h1
          exact Or.inl (Or.inr ⟨kv, h2, h3⟩)
        · exact Or.inr ⟨item2, h1, kv, h2, h3⟩

/-- Claim C2, amended: the RBC CSV header is the union of every key present
across all records — each such key appears exactly once — in first-seen
order rather than sorted; a record missing a header key renders as the
empty quoted string; the Meduza CSV serializer instead takes only the first
record's keys for its header. -/
theorem csv_header_union_spec (data : List CsvRecord) :
    (allKeysUnion data).Nodup ∧
    (∀ k, k ∈ allKeysUnion data ↔ ∃ item ∈ data, ∃ kv ∈ item, kv.1 = k) ∧
    (∀ (item : CsvRecord) (k : JStr), (∀ kv ∈ item, kv.1 ≠ k) →
       renderCellRBC (lookupKey item k) = toCL "\"\"") ∧
    (∀ item : CsvRecord, rbcCsvRow (allKeysUnion data) item
       = joinSep (toCL ",") ((allKeysUnion data).map
           (fun h => renderCellRBC (lookupKey item h)))) ∧
    (∀ d : List CsvRecord, meduzaCsvHeaderKeys d = (d.headD []).map Prod.fst) := by
  refine ⟨?_, ?_, ?_, fun item => rfl, fun d => rfl⟩
  · exact allKeysFold_nodup data [] List.nodup_nil
  · intro k
    have h := mem_allKeysFold data [] k
    simpa [allKeysUnion] using h
  · intro item k hnone
    have hlk : lookupKey item k = none := by
      unfold lookupKey
      have hf : item.find? (fun kv => decide (kv.1 = k)) = none := by
        rw [List.find?_eq_none]
        intro kv hkv
        simp [hnone kv hkv]
      rw [hf]
      rfl
    rw [hlk]
    rfl

/-- Counterexample to claim C2 as stated: with records `{b:..}` then
`{a:..}` the RBC header is `b,a` — insertion order, not sorted; and with
records `{a:..}` then `{x:..}` the Meduza header omits the key `x` that is
present in the second record. -/
theorem csv_header_sorted_counterexample :
    allKeysUnion
        [[(toCL "b", JsVal.str (toCL "1"))], [(toCL "a", JsVal.str (toCL "2"))]]
      = [toCL "b", toCL "a"] ∧
    sortedByLex (allKeysUnion
        [[(toCL "b", JsVal.str (toCL "1"))], [(toCL "a", JsVal.str (toCL "2"))]])
      = false ∧
    meduzaCsvHeaderKeys
        [[(toCL "a", JsVal.str (toCL "1"))], [(toCL "x", JsVal.str (toCL "2"))]]
      = [toCL "a"] ∧
    (toCL "x") ∉ meduzaCsvHeaderKeys
        [[(toCL "a", JsVal.str (toCL "1"))], [(toCL "x", JsVal.str (toCL "2"))]] ∧
    (∃ item ∈ [[(toCL "a", JsVal.str (toCL "1"))],
               [(toCL "x", JsVal.str (toCL "2"))]],
       ∃ kv ∈ item, kv.1 = toCL "x") := by
  decide

/-- Counterexample to claim C1 as stated: two discovered entries share url
`u` with titles `A` then `B`; the kept stub carries title `B`, the
second-occurring one — first occurrence does not win. -/
theorem dedup_first_wins_counterexample :
    uniqueArticles [⟨toCL "A", toCL "u"⟩, ⟨toCL "B", toCL "u"⟩]
      = [⟨toCL "B", toCL "u"⟩] ∧
    (⟨toCL "B", toCL "u"⟩ : Stub).title ≠ (⟨toCL "A", toCL "u"⟩ : Stub).title := by
  decide

end FiveUA
